import Mathlib

/-!
Verification of the binary codec of serialization-cpp: the fixed-width
packer (`pack`/`unpack`), the varint codec (`encode_varint`/`decode_varint`),
the reader `deserializer_t` with its cursor operations, the writer's
collection framing (`pod` on vectors and nested vectors), and the
`SerializablePod` / `SerializableVector` comparison operators.

Modelling conventions for the shallow embedding:
* Bytes are `Nat` values; every byte produced by the source is `< 256`.
* Machine integers of byte width `s` are `Nat` values `< 2^(8*s)`; where the
  source truncates (a cast or unsigned overflow) the model takes `% 2^(8*s)`,
  and `uint64_t` intermediates take `% 2^64`.
* C++ `throw` is modelled with `Except CppError`.  Places where the source
  has undefined behavior (an out-of-range iterator) are marked with the
  distinguished outcome `CppError.undefinedBehavior`; no round-trip theorem
  below depends on such a state.
* `size_t` arithmetic wraps modulo `2^64`.  On every defined-behavior path
  of the reader the cursor additions stay far below `2^64`, so the model
  writes the wrap only where the source can actually wrap: `skip`
  (`offset += count`) and `unread_bytes` (`buffer.size() - offset`).
-/

/-- Error outcomes of the C++ sources: `std::range_error` and
`std::runtime_error` with their message, plus a marker for undefined
behavior (no exception is raised there; the marker records that the
source's behavior is not defined). -/
inductive CppError where
  | rangeError : String → CppError
  | runtimeError : String → CppError
  | undefinedBehavior : CppError
deriving Repr, DecidableEq

namespace Serialization

/-- Little-endian base-256 digits of `v`, exactly `s` bytes
(the `memcpy` of an `s`-byte integer into a byte array on the
little-endian machine order the spec fixes). -/
def natToBytesLE : Nat → Nat → List Nat
  | 0, _ => []
  | s + 1, v => (v % 256) :: natToBytesLE s (v / 256)

/-- Reads a little-endian byte sequence back as a number
(the `memcpy` from the byte scratch area into the value). -/
def bytesToNatLE : List Nat → Nat
  | [] => 0
  | b :: rest => b + 256 * bytesToNatLE rest

/-- Model of `Serialization::pack` (serialization_helper.h): copies the value's
bytes in native (little-endian) order into a vector of exactly
`sizeof(Type) = s` bytes, reversed when `big_endian`. -/
def pack (s : Nat) (value : Nat) (big_endian : Bool) : List Nat :=
  let result := natToBytesLE s value
  if big_endian then result.reverse else result

/-- Model of `Serialization::unpack` (serialization_helper.h): range-checks
`offset + sizeof(Type) > packed.size()`, copies `s` bytes starting at
`offset`, reverses them when `big_endian`, and reinterprets them in
native (little-endian) order. -/
def unpack (s : Nat) (packed : List Nat) (offset : Nat) (big_endian : Bool) :
    Except CppError Nat :=
  if offset + s > packed.length then
    .error (.rangeError "not enough data to complete request")
  else
    let bytes := (packed.drop offset).take s
    let bytes := if big_endian then bytes.reverse else bytes
    .ok (bytesToNatLE bytes)

/-- The encode loop of `Serialization::encode_varint`.  `gas` is the number
of continuation bytes the guard still allows: the source throws when
`output.size() == max_length - 1 = sizeof(Type) + 1` with `val >= 0x80`
still pending, i.e. exactly when `gas = 0` here.  A continuation byte is
`(static_cast<unsigned char>(val) & 0x7f) | 0x80 = val % 128 + 128`; the
terminal byte is `static_cast<unsigned char>(val) = val % 256`
(with `val < 0x80` at that point). -/
def encodeAux : Nat → Nat → Except CppError (List Nat)
  | 0, v =>
    if v ≥ 128 then .error (.rangeError "value is out of range for type")
    else .ok [v % 256]
  | gas + 1, v =>
    if v ≥ 128 then
      match encodeAux gas (v / 128) with
      | .ok rest => .ok ((v % 128 + 128) :: rest)
      | .error e => .error e
    else .ok [v % 256]

/-- Model of `Serialization::encode_varint` for a type of byte width `s`:
`max_length = sizeof(Type) + 2`, and the loop guard fires once
`sizeof(Type) + 1` continuation bytes have been emitted. -/
def encode_varint (s : Nat) (value : Nat) : Except CppError (List Nat) :=
  encodeAux (s + 1) value

/-- The do-while loop of `Serialization::decode_varint` over the bytes from
the current counter on, for a target type of bit width `W`.  Per byte `b`:
`value = (shift < 28) ? uint64_t(b & 0x7f) << shift
                      : uint64_t(b & 0x7f) * (uint64_t(1) << shift)`
(`b & 0x7f = b % 128` for bytes; both `uint64_t` computations are taken
`% 2^64` — for `shift ≥ 64` the source's shift is undefined behavior and
the model adopts the wrapped-to-zero reading, which no theorem below
exercises), then `temp_result += Type(value)` accumulates `% 2^W`.
Returns the accumulated value and the number of bytes consumed. -/
def decodeLoop (W : Nat) : List Nat → Nat → Nat → Except CppError (Nat × Nat)
  | [], _, _ => .error (.rangeError "could not decode varint")
  | b :: rest, shift, temp =>
    let value :=
      if shift < 28 then ((b % 128) * 2 ^ shift) % 2 ^ 64
      else ((b % 128) * (2 ^ shift % 2 ^ 64)) % 2 ^ 64
    let temp2 := (temp + value % 2 ^ W) % 2 ^ W
    if b ≥ 128 then
      match decodeLoop W rest (shift + 7) temp2 with
      | .ok (r, n) => .ok (r, n + 1)
      | .error e => .error e
    else .ok (temp2, 1)

/-- Model of `Serialization::decode_varint` for a type of byte width `s`: rejects
`offset > packed.size()`, runs the accumulation loop from `offset`, then
performs the source's final check `result = Type(temp_result);
if (result != temp_result) throw range_error` — note `temp_result`
already has type `Type`, so `result` is `temp_result % 2^(8*s)` of a
value that is kept `< 2^(8*s)` throughout. -/
def decode_varint (s : Nat) (packed : List Nat) (offset : Nat) :
    Except CppError (Nat × Nat) :=
  if offset > packed.length then
    .error (.rangeError "offset exceeds sizes of vector")
  else
    match decodeLoop (8 * s) (packed.drop offset) 0 0 with
    | .ok (temp, n) =>
      let result := temp % 2 ^ (8 * s)
      if result ≠ temp then .error (.rangeError "value is out of range for type")
      else .ok (result, n)
    | .error e => .error e

/-- The reader: a byte buffer plus cursor (deserializer_t.h). -/
structure deserializer_t where
  buffer : List Nat
  offset : Nat
deriving Repr, DecidableEq

/-- Model of `deserializer_t::bytes` (deserializer_t.cpp): records `start = offset`,
advances the cursor unless peeking, and returns
`{buffer.begin() + start, buffer.begin() + start + count}` with NO bounds
check — when `start + count` exceeds the buffer length the construction
uses an out-of-range iterator, which is undefined behavior. -/
def deserializer_t.bytes (r : deserializer_t) (count : Nat) (peek : Bool) :
    Except CppError (List Nat × deserializer_t) :=
  let start := r.offset
  let r2 := if peek then r else { r with offset := r.offset + count }
  if start + count ≤ r.buffer.length then
    .ok ((r.buffer.drop start).take count, r2)
  else
    .error .undefinedBehavior

/-- The fixed-width reads `uint8 .. uint256` (deserializer_t.cpp) share this
shape for `s = 1, 2, 4, 8, 16, 32`: record `start = offset`, advance the
cursor by `sizeof(Type)` unless peeking, then `unpack<Type>(buffer, start,
big_endian)` (`uint8` passes no endianness, i.e. `big_endian = false`).
If `unpack` throws, the C++ object keeps the already-advanced cursor; that
exceptional state is not observable through this embedding and no theorem
below depends on it. -/
def deserializer_t.uint_fixed (r : deserializer_t) (s : Nat) (peek : Bool)
    (big_endian : Bool) : Except CppError (Nat × deserializer_t) :=
  let start := r.offset
  let r2 := if peek then r else { r with offset := r.offset + s }
  match unpack s r.buffer start big_endian with
  | .ok v => .ok (v, r2)
  | .error e => .error e

/-- Model of `deserializer_t::skip`: `offset += count`, a `size_t` addition (wraps
modulo `2^64`), with no bounds clamping. -/
def deserializer_t.skip (r : deserializer_t) (count : Nat) : deserializer_t :=
  { r with offset := (r.offset + count) % 2 ^ 64 }

/-- Model of `deserializer_t::reset`: jumps the cursor to an arbitrary position. -/
def deserializer_t.reset (r : deserializer_t) (position : Nat) : deserializer_t :=
  { r with offset := position }

/-- Model of `deserializer_t::compact`: replaces the buffer by
`{buffer.begin() + offset, buffer.end()}`.  The cursor is left unchanged.
(For `offset > buffer.length` the source iterator arithmetic is undefined
behavior; `List.drop` clamps, and no theorem below uses that case.) -/
def deserializer_t.compact (r : deserializer_t) : deserializer_t :=
  { r with buffer := r.buffer.drop r.offset }

/-- Model of `deserializer_t::unread_bytes`: `buffer.size() - offset` as a `size_t`
subtraction (wraps modulo `2^64` when `offset > buffer.size()`); the
source's `(unread >= 0) ? unread : 0` guard is identically true for the
unsigned quantity and is dropped here. -/
def deserializer_t.unread_bytes (r : deserializer_t) : Nat :=
  (r.buffer.length + 2 ^ 64 - r.offset) % 2 ^ 64

/-- Model of `deserializer_t::unread_data`: `{buffer.begin() + offset, buffer.end()}`
(again undefined behavior when `offset > buffer.length`, unused below). -/
def deserializer_t.unread_data (r : deserializer_t) : List Nat :=
  r.buffer.drop r.offset

/-- Model of `deserializer_t::varint<Type>` for byte width `s`: decodes at the
current cursor and advances by the consumed length unless peeking. -/
def deserializer_t.varint (r : deserializer_t) (s : Nat) (peek : Bool) :
    Except CppError (Nat × deserializer_t) :=
  match decode_varint s r.buffer r.offset with
  | .ok (result, length) =>
    .ok (result, if peek then r else { r with offset := r.offset + length })
  | .error e => .error e

/-- Model of `deserializer_t::pod<Type>` for a fixed-size POD of `N` bytes: reads
`result.size() = N` raw bytes, then `SerializablePod::deserialize` checks
`data.size() == sizeof(bytes)` and copies. -/
def deserializer_t.pod (r : deserializer_t) (N : Nat) (peek : Bool) :
    Except CppError (List Nat × deserializer_t) :=
  match r.bytes N peek with
  | .ok (data, r2) =>
    if data.length = N then .ok (data, r2)
    else .error (.runtimeError "data is of the wrong size for this structure")
  | .error e => .error e

/-- The element loop of `deserializer_t::podV`: `count` sequential
non-peeking `pod<Type>()` reads, collected in order. -/
def podVLoop (N : Nat) : Nat → deserializer_t → Except CppError (List (List Nat) × deserializer_t)
  | 0, r => .ok ([], r)
  | count + 1, r =>
    match r.pod N false with
    | .ok (v, r2) =>
      match podVLoop N count r2 with
      | .ok (rest, r3) => .ok (v :: rest, r3)
      | .error e => .error e
    | .error e => .error e

/-- Model of `deserializer_t::podV<Type>` (deserializer_t.h): records the start
offset, reads a `varint<uint64_t>` count, reads `count` elements, and on
`peek` resets the cursor to the start. -/
def deserializer_t.podV (r : deserializer_t) (N : Nat) (peek : Bool) :
    Except CppError (List (List Nat) × deserializer_t) :=
  let start := r.offset
  match r.varint 8 false with
  | .ok (count, r1) =>
    match podVLoop N count r1 with
    | .ok (result, r2) => .ok (result, if peek then r2.reset start else r2)
    | .error e => .error e
  | .error e => .error e

/-- The outer loop of `deserializer_t::podVV`: per outer element, a
`varint<uint64_t>` count followed by that many `pod<Type>()` reads. -/
def podVVLoop (N : Nat) : Nat → deserializer_t → Except CppError (List (List (List Nat)) × deserializer_t)
  | 0, r => .ok ([], r)
  | count + 1, r =>
    match r.varint 8 false with
    | .ok (inner, r1) =>
      match podVLoop N inner r1 with
      | .ok (level2, r2) =>
        match podVVLoop N count r2 with
        | .ok (rest, r3) => .ok (level2 :: rest, r3)
        | .error e => .error e
      | .error e => .error e
    | .error e => .error e

/-- Model of `deserializer_t::podVV<Type>` (deserializer_t.h): start offset, outer
`varint<uint64_t>` count, per outer element an inner count plus elements,
cursor restored on `peek`. -/
def deserializer_t.podVV (r : deserializer_t) (N : Nat) (peek : Bool) :
    Except CppError (List (List (List Nat)) × deserializer_t) :=
  let start := r.offset
  match r.varint 8 false with
  | .ok (level1_count, r1) =>
    match podVVLoop N level1_count r1 with
    | .ok (result, r2) => .ok (result, if peek then r2.reset start else r2)
    | .error e => .error e
  | .error e => .error e

/-- The bytes `serializer_t::pod(const std::vector<Type> &)` appends for a
vector of fixed-size PODs: `varint(values.size())` — a `varint<size_t>`,
byte width 8 — followed by each element's `serialize()` bytes in order. -/
def pod_vector_bytes (values : List (List Nat)) : Except CppError (List Nat) :=
  match encode_varint 8 values.length with
  | .ok c => .ok (c ++ values.flatten)
  | .error e => .error e

/-- The per-outer-element bytes of
`serializer_t::pod(const std::vector<std::vector<Type>> &)`:
`varint(level1.size())` followed by the inner elements' bytes. -/
def podNestedAux : List (List (List Nat)) → Except CppError (List Nat)
  | [] => .ok []
  | level1 :: rest =>
    match encode_varint 8 level1.length with
    | .ok c =>
      match podNestedAux rest with
      | .ok restBytes => .ok (c ++ level1.flatten ++ restBytes)
      | .error e => .error e
    | .error e => .error e

/-- The bytes `serializer_t::pod(const std::vector<std::vector<Type>> &)`
appends: `varint(values.size())`, then per inner list `varint(count)`
followed by that list's elements. -/
def pod_nested_bytes (values : List (List (List Nat))) : Except CppError (List Nat) :=
  match encode_varint 8 values.length with
  | .ok c =>
    match podNestedAux values with
    | .ok body => .ok (c ++ body)
    | .error e => .error e
  | .error e => .error e

/-- A default-constructed `SerializablePod<SIZE>`: `unsigned char
bytes[SIZE] = {0}` zero-initializes every byte. -/
def pod_default (SIZE : Nat) : List Nat :=
  List.replicate SIZE 0

/-- Model of `SerializablePod::operator==`: `std::equal` over the full `SIZE`-byte
ranges; for two arrays of the same length this is elementwise equality. -/
def pod_eq (a b : List Nat) : Bool :=
  a == b

/-- Model of `SerializablePod::empty`: `*this == SerializablePod<SIZE>()`. -/
def pod_empty (SIZE : Nat) (a : List Nat) : Bool :=
  pod_eq a (pod_default SIZE)

/-- The loop of `SerializablePod::operator<` after reindexing: the source
walks `i` from `SIZE - 1` down to `0`, so it is the lexicographic compare
of the REVERSED byte arrays (most significant = highest index first). -/
def podLtLoop : List Nat → List Nat → Bool
  | x :: xs, y :: ys =>
    if x < y then true
    else if x > y then false
    else podLtLoop xs ys
  | _, _ => false

/-- Model of `SerializablePod::operator<`: byte-by-byte from the highest index down
to index 0. -/
def pod_lt (a b : List Nat) : Bool :=
  podLtLoop a.reverse b.reverse

/-- Model of `SerializableVector::operator==` (serializable_vector.h):
`std::equal(container.begin(), container.end(), other.container.begin())` —
only the LEFT operand's range is walked, with no length comparison.  (When
the right container is shorter the source reads past its end — undefined
behavior — reaching the `[x :: xs, []]` branch here.) -/
def sv_eq : List (List Nat) → List (List Nat) → Bool
  | [], _ => true
  | x :: xs, y :: ys => x == y && sv_eq xs ys
  | _ :: _, [] => false

end Serialization

namespace Serialization

/-- The two `uint64_t` computations of a group's contribution agree
whenever both are taken modulo `2^64`. -/
theorem decode_value_eq (b shift : Nat) :
    (if shift < 28 then ((b % 128) * 2 ^ shift) % 2 ^ 64
     else ((b % 128) * (2 ^ shift % 2 ^ 64)) % 2 ^ 64) =
      ((b % 128) * 2 ^ shift) % 2 ^ 64 := by
  split
  · rfl
  · rw [Nat.mul_mod_mod]

/-- Splitting off the low 7-bit group of `v` at shift position `sh`. -/
theorem group_split (v sh : Nat) :
    (v % 128) * 2 ^ sh + (v / 128) * 2 ^ (sh + 7) = v * 2 ^ sh := by
  rw [pow_add]
  conv_rhs => rw [← Nat.mod_add_div v 128]
  ring

/-- The encode loop succeeds whenever the value fits in the groups the
remaining gas allows. -/
theorem encodeAux_ok_exists :
    ∀ gas v, v < 128 ^ (gas + 1) → ∃ bs, encodeAux gas v = .ok bs := by
  intro gas
  induction gas with
  | zero =>
    intro v hv
    refine ⟨[v % 256], ?_⟩
    unfold encodeAux
    rw [if_neg (by simpa using hv)]
  | succ gas ih =>
    intro v hv
    by_cases h : v ≥ 128
    · have hdiv : v / 128 < 128 ^ (gas + 1) := by
        rw [Nat.div_lt_iff_lt_mul (by norm_num : 0 < 128)]
        calc v < 128 ^ (gas + 1 + 1) := hv
          _ = 128 ^ (gas + 1) * 128 := by ring
      obtain ⟨rest, hrest⟩ := ih (v / 128) hdiv
      refine ⟨(v % 128 + 128) :: rest, ?_⟩
      unfold encodeAux
      rw [if_pos h, hrest]
    · refine ⟨[v % 256], ?_⟩
      unfold encodeAux
      rw [if_neg h]

/-- A successful encode emits at most `gas + 1` bytes. -/
theorem encodeAux_ok_length :
    ∀ gas v bs, encodeAux gas v = .ok bs → bs.length ≤ gas + 1 := by
  intro gas
  induction gas with
  | zero =>
    intro v bs h
    unfold encodeAux at h
    split at h
    · exact absurd h (by simp)
    · cases h
      simp
  | succ gas ih =>
    intro v bs h
    unfold encodeAux at h
    split at h
    · cases hrest : encodeAux gas (v / 128) with
      | ok rest =>
        rw [hrest] at h
        cases h
        simpa using Nat.add_le_add_right (ih _ _ hrest) 1
      | error e => rw [hrest] at h; cases h
    · cases h
      simp
end Serialization

namespace Serialization

/-- Reading a terminal byte (`v < 128`): the loop stops and adds the
group's full contribution, provided nothing wraps. -/
theorem decodeLoop_terminal (W : Nat) (rest : List Nat) (shift temp v : Nat)
    (hv : v < 128) (h1 : temp + v * 2 ^ shift < 2 ^ W)
    (h2 : v * 2 ^ shift < 2 ^ 64) :
    decodeLoop W (v % 256 :: rest) shift temp = .ok (temp + v * 2 ^ shift, 1) := by
  have hmod : v % 256 = v := Nat.mod_eq_of_lt (by omega)
  have hv128 : v % 128 = v := Nat.mod_eq_of_lt hv
  have hle : v * 2 ^ shift ≤ temp + v * 2 ^ shift := Nat.le_add_left _ _
  rw [hmod]
  simp only [decodeLoop, decode_value_eq]
  rw [hv128, Nat.mod_eq_of_lt h2,
    Nat.mod_eq_of_lt (lt_of_le_of_lt hle h1), Nat.mod_eq_of_lt h1,
    if_neg (by omega)]

/-- Core varint round-trip: decoding the bytes a successful encode
produced (with any suffix appended) recovers the value, scaled by the
current shift position and added to the accumulator, and consumes exactly
the encoded bytes — as long as neither the `uint64_t` group computation
nor the width-`W` accumulator can wrap. -/
theorem decodeLoop_encodeAux (W : Nat) (rest : List Nat) :
    ∀ gas v bs, encodeAux gas v = .ok bs →
      ∀ shift temp, temp + v * 2 ^ shift < 2 ^ W → v * 2 ^ shift < 2 ^ 64 →
        decodeLoop W (bs ++ rest) shift temp =
          .ok (temp + v * 2 ^ shift, bs.length) := by
  intro gas
  induction gas with
  | zero =>
    intro v bs henc shift temp h1 h2
    unfold encodeAux at henc
    split at henc
    · exact absurd henc (by simp)
    · cases henc
      simpa using decodeLoop_terminal W rest shift temp v (by omega) h1 h2
  | succ gas ih =>
    intro v bs henc shift temp h1 h2
    unfold encodeAux at henc
    split at henc
    · rename_i hge
      cases hrest : encodeAux gas (v / 128) with
      | error e => rw [hrest] at henc; cases henc
      | ok tail =>
        rw [hrest] at henc
        cases henc
        have hgroup := group_split v shift
        have hlow_le : (v % 128) * 2 ^ shift ≤ v * 2 ^ shift :=
          Nat.mul_le_mul_right _ (Nat.mod_le v 128)
        have hhigh_le : (v / 128) * 2 ^ (shift + 7) ≤ v * 2 ^ shift := by omega
        have htemp2 : temp + (v % 128) * 2 ^ shift +
            (v / 128) * 2 ^ (shift + 7) = temp + v * 2 ^ shift := by omega
        have hih := ih (v / 128) tail hrest (shift + 7)
          (temp + (v % 128) * 2 ^ shift)
          (by omega) (lt_of_le_of_lt hhigh_le h2)
        show decodeLoop W ((v % 128 + 128) :: (tail ++ rest)) shift temp = _
        simp only [decodeLoop, decode_value_eq]
        rw [Nat.add_mod_right, Nat.mod_mod_of_dvd _ dvd_rfl,
          Nat.mod_eq_of_lt (lt_of_le_of_lt hlow_le h2),
          Nat.mod_eq_of_lt (by omega : (v % 128) * 2 ^ shift < 2 ^ W),
          Nat.mod_eq_of_lt (by omega : temp + (v % 128) * 2 ^ shift < 2 ^ W),
          if_pos (by omega : v % 128 + 128 ≥ 128), hih, htemp2]
        simp
    · cases henc
      simpa using decodeLoop_terminal W rest shift temp v (by omega) h1 h2

end Serialization

namespace Serialization

/-- C1 (amended): for every unsigned integer type of byte width `s` whose
bit width is at most 64 — and for the wider 128/256-bit types whenever the
value is below `2^64` — `decode_varint` at offset 0 on the bytes produced
by `encode_varint v` returns exactly `(v, n)` with `n` the encoded length.
(As stated over ALL values of the wide types the claim fails; see the
counterexample.) -/
theorem varint_roundtrip (s v : Nat) (h1 : v < 2 ^ (8 * s))
    (h2 : 8 * s ≤ 64 ∨ v < 2 ^ 64) :
    ∃ bs, encode_varint s v = .ok bs ∧
      decode_varint s bs 0 = .ok (v, bs.length) := by
  have h64 : v < 2 ^ 64 := by
    rcases h2 with h | h
    · exact lt_of_lt_of_le h1 (Nat.pow_le_pow_right (by norm_num) h)
    · exact h
  have hfit : v < 128 ^ (s + 1 + 1) := by
    have hpow : (128 : Nat) ^ (s + 1 + 1) = 2 ^ (7 * (s + 1 + 1)) := by
      rw [pow_mul]
      norm_num
    rw [hpow]
    rcases Nat.le_total s 14 with hs | hs
    · exact lt_of_lt_of_le h1 (Nat.pow_le_pow_right (by norm_num) (by omega))
    · exact lt_of_lt_of_le h64 (Nat.pow_le_pow_right (by norm_num) (by omega))
  obtain ⟨bs, hbs⟩ := encodeAux_ok_exists (s + 1) v hfit
  refine ⟨bs, hbs, ?_⟩
  have hloop := decodeLoop_encodeAux (8 * s) [] (s + 1) v bs hbs 0 0
    (by simpa using h1) (by simpa using h64)
  rw [List.append_nil] at hloop
  simp only [pow_zero, mul_one, zero_add] at hloop
  unfold decode_varint
  rw [if_neg (by omega), List.drop_zero, hloop]
  simp [Nat.mod_eq_of_lt h1]

/-- C1 witness: the round-trip at width 1 (uint8) and value 200. -/
theorem varint_roundtrip_witness :
    200 < 2 ^ (8 * 1) ∧
    ∃ bs, encode_varint 1 200 = .ok bs ∧
      decode_varint 1 bs 0 = .ok (200, bs.length) :=
  ⟨by decide, varint_roundtrip 1 200 (by decide) (Or.inl (by decide))⟩

/-- C1 counterexample: for the 128-bit type (byte width 16) the value
`2^64` encodes successfully to ten bytes, yet decoding those bytes
returns `(0, 10)`: the group contribution `2 * 2^63` wraps in the
`uint64_t` intermediate, so the claimed round-trip law is false for a
supported type/value pair. -/
theorem varint_roundtrip_counterexample :
    encode_varint 16 (2 ^ 64) =
      .ok [128, 128, 128, 128, 128, 128, 128, 128, 128, 2] ∧
    decode_varint 16 [128, 128, 128, 128, 128, 128, 128, 128, 128, 2] 0 =
      .ok (0, 10) ∧ (0 : Nat) ≠ 2 ^ 64 :=
  ⟨rfl, rfl, by decide⟩

/-- C3: the final overflow check of `decode_varint` compares
`Type(temp_result)` with `temp_result`, both already of the target type,
so it can never fire: decoding the two-byte varint `[0x80, 0x02]`
(the well-formed encoding of 256, as the first conjunct certifies) into
the 8-bit type returns the silently wrapped value `(0, 2)` instead of
raising the claimed range error. -/
theorem decode_varint_overflow_wraps :
    encode_varint 2 256 = .ok [128, 2] ∧
    decode_varint 1 [128, 2] 0 = .ok (0, 2) :=
  ⟨rfl, rfl⟩

/-- C7 (amended): a successful `encode_varint` for byte width `s` returns
at most `s + 2` bytes — the bound the source's `max_length = sizeof(Type)
+ 2` guard actually enforces, one byte more than the claimed
`sizeof(type) + 1`. -/
theorem encode_varint_length_bound (s v : Nat) (bs : List Nat)
    (h : encode_varint s v = .ok bs) : bs.length ≤ s + 2 := by
  have hlen := encodeAux_ok_length (s + 1) v bs h
  omega

/-- C7 witness: width 1, value 5 encodes to one byte, within the bound. -/
theorem encode_varint_length_bound_witness :
    encode_varint 1 5 = .ok [5] ∧ ([5] : List Nat).length ≤ 1 + 2 :=
  ⟨rfl, encode_varint_length_bound 1 5 [5] rfl⟩

/-- C7 counterexample: encoding the 8-byte-wide value `2^64 - 1` succeeds
(no range error) and emits 10 bytes, exceeding the claimed
`sizeof(type) + 1 = 9` bound. -/
theorem encode_varint_length_counterexample :
    encode_varint 8 (2 ^ 64 - 1) =
      .ok [255, 255, 255, 255, 255, 255, 255, 255, 255, 1] ∧
    ¬ (([255, 255, 255, 255, 255, 255, 255, 255, 255, 1] : List Nat).length
        ≤ 8 + 1) :=
  ⟨rfl, by decide⟩

end Serialization

namespace Serialization

/-- Lemma: `natToBytesLE` always produces exactly `s` bytes. -/
theorem natToBytesLE_length : ∀ s v, (natToBytesLE s v).length = s := by
  intro s
  induction s with
  | zero => intro v; rfl
  | succ s ih => intro v; simp [natToBytesLE, ih]

/-- Reading back the little-endian digits recovers any value that fits. -/
theorem bytesToNatLE_natToBytesLE :
    ∀ s v, v < 256 ^ s → bytesToNatLE (natToBytesLE s v) = v := by
  intro s
  induction s with
  | zero =>
    intro v hv
    have hv0 : v = 0 := by simpa [Nat.lt_one_iff] using hv
    simp [hv0, natToBytesLE, bytesToNatLE]
  | succ s ih =>
    intro v hv
    have hdiv : v / 256 < 256 ^ s := by
      rw [Nat.div_lt_iff_lt_mul (by norm_num : (0 : Nat) < 256)]
      calc v < 256 ^ (s + 1) := hv
        _ = 256 ^ s * 256 := by ring
    show (v % 256) + 256 * bytesToNatLE (natToBytesLE s (v / 256)) = v
    rw [ih (v / 256) hdiv]
    exact Nat.mod_add_div v 256

/-- C4: for every fixed-width integer type of byte width `s`, every
representable value `v` and both endianness settings,
`unpack(pack(v, be), 0, be) = v`. -/
theorem pack_unpack_roundtrip (s v : Nat) (big_endian : Bool)
    (h : v < 2 ^ (8 * s)) :
    unpack s (pack s v big_endian) 0 big_endian = .ok v := by
  have h256 : v < 256 ^ s := by
    have hpow : (256 : Nat) ^ s = 2 ^ (8 * s) := by
      rw [pow_mul]; norm_num
    rw [hpow]; exact h
  have hlen : (pack s v big_endian).length = s := by
    unfold pack
    cases big_endian <;> simp [natToBytesLE_length]
  simp only [unpack]
  rw [if_neg (by omega), List.drop_zero]
  have htake : (pack s v big_endian).take s = pack s v big_endian :=
    List.take_of_length_le (by omega)
  rw [htake]
  unfold pack
  cases big_endian
  · simpa using bytesToNatLE_natToBytesLE s v h256
  · simpa using bytesToNatLE_natToBytesLE s v h256

/-- C4 witness: width 2, value 300, big-endian. -/
theorem pack_unpack_roundtrip_witness :
    300 < 2 ^ (8 * 2) ∧ unpack 2 (pack 2 300 true) 0 true = .ok 300 :=
  ⟨by decide, pack_unpack_roundtrip 2 300 true (by decide)⟩

/-- C2: at the failing input — a one-byte buffer, `bytes(2)` —
`deserializer_t::bytes` raises no range error at all: the source performs
no bounds check, and constructing the result from an out-of-range
iterator is undefined behavior (the distinguished model outcome).  The
fixed-width path on the same short buffer (here `unpack` at byte width 2,
which `uint16` calls) does raise the range error the claim describes. -/
theorem bytes_oob_unchecked :
    deserializer_t.bytes ⟨[1], 0⟩ 2 false = .error .undefinedBehavior ∧
    unpack 2 [1] 0 false =
      .error (.rangeError "not enough data to complete request") :=
  ⟨rfl, rfl⟩

/-- C6 counterexample: `skip(2)` on a one-byte buffer moves the cursor to
2, strictly beyond the buffer end, and `unread_bytes` then returns the
wrapped `size_t` value `2^64 - 1` instead of a length. -/
theorem cursor_invariant_counterexample :
    ((⟨[1], 0⟩ : deserializer_t).skip 2).offset >
      (⟨[1], 0⟩ : deserializer_t).buffer.length ∧
    ((⟨[1], 0⟩ : deserializer_t).skip 2).unread_bytes = 2 ^ 64 - 1 :=
  ⟨by decide, by decide⟩

/-- C6 (amended): while `cursor ≤ buffer.length` holds, `unread_bytes`
equals `buffer.length - cursor`, and successful fixed-width and raw-byte
reads keep the cursor within bounds; but `skip(count)` sets the cursor to
`(cursor + count) mod 2^64` and `reset(position)` to any position, with no
clamping, so those two operations do not preserve the invariant. -/
theorem cursor_invariant_amended (r : deserializer_t) (s count n v : Nat)
    (peek big_endian : Bool) (data : List Nat) (r2 r3 : deserializer_t)
    (hoff : r.offset ≤ r.buffer.length) (hlen : r.buffer.length < 2 ^ 64) :
    r.unread_bytes = r.buffer.length - r.offset ∧
    (r.uint_fixed s peek big_endian = .ok (v, r2) →
      r2.offset ≤ r2.buffer.length) ∧
    (r.bytes count peek = .ok (data, r3) → r3.offset ≤ r3.buffer.length) ∧
    (r.skip n).offset = (r.offset + n) % 2 ^ 64 ∧
    (r.reset n).offset = n := by
  refine ⟨?_, ?_, ?_, rfl, rfl⟩
  · unfold deserializer_t.unread_bytes
    have h64 : (2 : Nat) ^ 64 = 18446744073709551616 := by norm_num
    omega
  · intro h
    simp only [deserializer_t.uint_fixed] at h
    cases hun : unpack s r.buffer r.offset big_endian with
    | error e => rw [hun] at h; cases h
    | ok w =>
      rw [hun] at h
      cases h
      unfold unpack at hun
      split at hun
      · exact absurd hun (by simp)
      · rename_i hbound
        cases peek
        · show r.offset + s ≤ r.buffer.length
          omega
        · show r.offset ≤ r.buffer.length
          exact hoff
  · intro h
    simp only [deserializer_t.bytes] at h
    split at h
    · rename_i hbound
      cases h
      cases peek
      · show r.offset + count ≤ r.buffer.length
        omega
      · show r.offset ≤ r.buffer.length
        exact hoff
    · cases h

/-- C6 witness: a two-byte buffer with the cursor at 1. -/
theorem cursor_invariant_amended_witness :
    (⟨[5, 6], 1⟩ : deserializer_t).unread_bytes =
      (⟨[5, 6], 1⟩ : deserializer_t).buffer.length - 1 ∧
    ((⟨[5, 6], 1⟩ : deserializer_t).uint_fixed 1 false false =
        .ok (6, ⟨[5, 6], 2⟩) →
      (⟨[5, 6], 2⟩ : deserializer_t).offset ≤ ([5, 6] : List Nat).length) ∧
    ((⟨[5, 6], 1⟩ : deserializer_t).bytes 1 false = .ok ([6], ⟨[5, 6], 2⟩) →
      (⟨[5, 6], 2⟩ : deserializer_t).offset ≤ ([5, 6] : List Nat).length) ∧
    ((⟨[5, 6], 1⟩ : deserializer_t).skip 1).offset = (1 + 1) % 2 ^ 64 ∧
    ((⟨[5, 6], 1⟩ : deserializer_t).reset 1).offset = 1 :=
  cursor_invariant_amended ⟨[5, 6], 1⟩ 1 1 1 6 false false [6]
    ⟨[5, 6], 2⟩ ⟨[5, 6], 2⟩ (by decide) (by decide)

/-- C8 counterexample: on the reader with buffer `[1, 2, 3]` and cursor 1,
the unread remainder is `[2, 3]` before `compact()` but `[3]` after it:
`compact` truncates the buffer without resetting the cursor. -/
theorem compact_counterexample :
    ((⟨[1, 2, 3], 1⟩ : deserializer_t).compact).unread_data ≠
      (⟨[1, 2, 3], 1⟩ : deserializer_t).unread_data := by
  decide

/-- C8 (amended): `compact()` replaces the buffer by the unread suffix but
leaves the cursor unchanged, so the unread remainder after `compact` is
the pre-compact remainder with a further `cursor`-many bytes dropped; the
remainder (and hence all subsequent reads) is preserved exactly when the
cursor is 0. -/
theorem compact_amended (r : deserializer_t)
    (_hoff : r.offset ≤ r.buffer.length) :
    r.compact.buffer = r.unread_data ∧
    r.compact.offset = r.offset ∧
    r.compact.unread_data = r.unread_data.drop r.offset ∧
    (r.offset = 0 → r.compact.unread_data = r.unread_data) := by
  refine ⟨rfl, rfl, rfl, ?_⟩
  intro h0
  simp [deserializer_t.compact, deserializer_t.unread_data, h0]

/-- C8 witness: buffer `[1, 2, 3]`, cursor 1. -/
theorem compact_amended_witness :
    ((⟨[1, 2, 3], 1⟩ : deserializer_t).compact).buffer =
      (⟨[1, 2, 3], 1⟩ : deserializer_t).unread_data ∧
    ((⟨[1, 2, 3], 1⟩ : deserializer_t).compact).offset = 1 ∧
    ((⟨[1, 2, 3], 1⟩ : deserializer_t).compact).unread_data =
      ((⟨[1, 2, 3], 1⟩ : deserializer_t).unread_data).drop 1 ∧
    ((1 : Nat) = 0 →
      ((⟨[1, 2, 3], 1⟩ : deserializer_t).compact).unread_data =
        (⟨[1, 2, 3], 1⟩ : deserializer_t).unread_data) :=
  compact_amended ⟨[1, 2, 3], 1⟩ (by decide)

/-- The downward comparison loop: the all-zero array is below any array
containing a nonzero byte. -/
theorem podLtLoop_zero :
    ∀ ys : List Nat, (∃ b ∈ ys, b ≠ 0) →
      podLtLoop (List.replicate ys.length 0) ys = true := by
  intro ys
  induction ys with
  | nil => intro hex; simp at hex
  | cons y ys ih =>
    intro hex
    rw [List.length_cons, List.replicate_succ]
    by_cases hy : y = 0
    · subst hy
      show podLtLoop (0 :: List.replicate ys.length 0) (0 :: ys) = true
      have hex2 : ∃ b ∈ ys, b ≠ 0 := by
        rcases hex with ⟨b, hb, hbne⟩
        rcases List.mem_cons.mp hb with h | h
        · exact absurd h hbne
        · exact ⟨b, h, hbne⟩
      simpa [podLtLoop] using ih hex2
    · show podLtLoop (0 :: List.replicate ys.length 0) (y :: ys) = true
      simp [podLtLoop, Nat.pos_of_ne_zero hy]

/-- C9: a default-constructed `SerializablePod` is all-zero, `empty()`
holds for it, and under the top-index-first byte ordering it compares
strictly less than any POD of the same size with at least one nonzero
byte. -/
theorem pod_default_empty_and_minimal (SIZE : Nat) (a : List Nat)
    (hlen : a.length = SIZE) (hnz : ∃ b ∈ a, b ≠ 0) :
    pod_default SIZE = List.replicate SIZE 0 ∧
    pod_empty SIZE (pod_default SIZE) = true ∧
    pod_lt (pod_default SIZE) a = true := by
  refine ⟨rfl, ?_, ?_⟩
  · simp [pod_empty, pod_eq, pod_default]
  · unfold pod_lt pod_default
    rw [List.reverse_replicate, ← hlen, ← List.length_reverse]
    exact podLtLoop_zero a.reverse (by simpa using hnz)

/-- C9 witness: size 2 and the POD `[0, 3]` (nonzero high byte). -/
theorem pod_default_empty_and_minimal_witness :
    pod_default 2 = List.replicate 2 0 ∧
    pod_empty 2 (pod_default 2) = true ∧
    pod_lt (pod_default 2) [0, 3] = true :=
  pod_default_empty_and_minimal 2 [0, 3] (by decide) (by decide)

/-- C10: `SerializableVector::operator==` walks only the left operand's
range, so the empty vector compares equal to a one-element vector even
though the element counts differ. -/
theorem sv_eq_ignores_length :
    sv_eq [] [[1]] = true ∧ ([] : List (List Nat)).length ≠ [[1]].length :=
  ⟨rfl, by decide⟩

end Serialization


namespace Serialization

/-- If the buffer from the cursor on starts with a successful width-8
varint encoding of `n`, the reader's `varint<uint64_t>` returns `n` and
advances the cursor by exactly the encoded length. -/
theorem varint_read_at (buf : List Nat) (off n : Nat) (pre c rest : List Nat)
    (hbuf : buf = pre ++ (c ++ rest)) (hoff : off = pre.length)
    (henc : encode_varint 8 n = .ok c) (hn : n < 2 ^ 64) :
    deserializer_t.varint ⟨buf, off⟩ 8 false = .ok (n, ⟨buf, off + c.length⟩) := by
  have hdec : decode_varint 8 buf off = .ok (n, c.length) := by
    unfold decode_varint
    have hle : ¬ (off > buf.length) := by
      rw [hbuf, hoff]
      simp only [List.length_append, gt_iff_lt, not_lt]
      omega
    rw [if_neg hle, hbuf, hoff, List.drop_left]
    have hloop := decodeLoop_encodeAux 64 rest (8 + 1) n c henc 0 0
      (by simpa using hn) (by simpa using hn)
    simp only [pow_zero, mul_one, zero_add] at hloop
    rw [show (8 : Nat) * 8 = 64 from rfl, hloop]
    show (if n % 2 ^ 64 ≠ n then
        Except.error (CppError.rangeError "value is out of range for type")
      else Except.ok (n % 2 ^ 64, c.length)) = Except.ok (n, c.length)
    rw [Nat.mod_eq_of_lt hn, if_neg (by simp)]
  simp only [deserializer_t.varint, hdec]
  rfl

/-- Reading one fixed-size POD whose `N` bytes sit at the cursor. -/
theorem pod_read_at (buf : List Nat) (off N : Nat) (l pre rest : List Nat)
    (hbuf : buf = pre ++ (l ++ rest)) (hoff : off = pre.length)
    (hlN : l.length = N) :
    deserializer_t.pod ⟨buf, off⟩ N false = .ok (l, ⟨buf, off + N⟩) := by
  have hbound : off + N ≤ buf.length := by
    rw [hbuf, ← hlN]
    simp only [List.length_append]
    omega
  have hslice : (buf.drop off).take N = l := by
    rw [hbuf, hoff, List.drop_left, ← hlN, List.take_left]
  have hbytes : deserializer_t.bytes ⟨buf, off⟩ N false =
      .ok (l, ⟨buf, off + N⟩) := by
    simp only [deserializer_t.bytes]
    rw [if_pos hbound, hslice]
    rfl
  simp only [deserializer_t.pod, hbytes]
  rw [if_pos hlN]

/-- The element loop of `podV` reads back exactly the elements whose
serializations sit contiguously at the cursor. -/
theorem podVLoop_reads (N : Nat) :
    ∀ (values : List (List Nat)) (pre rest buf : List Nat) (off : Nat),
      buf = pre ++ (values.flatten ++ rest) → off = pre.length →
      (∀ l ∈ values, l.length = N) →
      podVLoop N values.length ⟨buf, off⟩ =
        .ok (values, ⟨buf, off + values.flatten.length⟩) := by
  intro values
  induction values with
  | nil =>
    intro pre rest buf off hbuf hoff hN
    simp [podVLoop]
  | cons l ls ih =>
    intro pre rest buf off hbuf hoff hN
    have hlN : l.length = N := hN l (by simp)
    have hbuf1 : buf = pre ++ (l ++ (ls.flatten ++ rest)) := by
      rw [hbuf]
      simp [List.append_assoc]
    have hpod := pod_read_at buf off N l pre (ls.flatten ++ rest) hbuf1 hoff hlN
    have hih := ih (pre ++ l) rest buf (off + N)
      (by rw [hbuf1, List.append_assoc])
      (by rw [hoff, ← hlN, List.length_append])
      (fun x hx => hN x (by simp [hx]))
    have hlen2 : off + N + ls.flatten.length = off + (l :: ls).flatten.length := by
      simp only [List.flatten_cons, List.length_append, ← hlN]
      omega
    show podVLoop N (ls.length + 1) ⟨buf, off⟩ = _
    simp only [podVLoop, hpod, hih]
    rw [hlen2]

/-- The outer loop of `podVV` reads back exactly the nested lists whose
framing bytes (as produced by the writer) sit at the cursor. -/
theorem podVVLoop_reads (N : Nat) :
    ∀ (nested : List (List (List Nat))) (body pre rest buf : List Nat) (off : Nat),
      podNestedAux nested = .ok body →
      buf = pre ++ (body ++ rest) → off = pre.length →
      (∀ inner ∈ nested, ∀ l ∈ inner, l.length = N) →
      (∀ inner ∈ nested, inner.length < 2 ^ 64) →
      podVVLoop N nested.length ⟨buf, off⟩ =
        .ok (nested, ⟨buf, off + body.length⟩) := by
  intro nested
  induction nested with
  | nil =>
    intro body pre rest buf off hbody hbuf hoff _ _
    simp only [podNestedAux] at hbody
    cases hbody
    simp [podVVLoop]
  | cons inner rest2 ih =>
    intro body pre rest buf off hbody hbuf hoff hN hcount
    simp only [podNestedAux] at hbody
    cases hc : encode_varint 8 inner.length with
    | error e => rw [hc] at hbody; cases hbody
    | ok c =>
      rw [hc] at hbody
      cases hrest : podNestedAux rest2 with
      | error e => rw [hrest] at hbody; cases hbody
      | ok restBytes =>
        rw [hrest] at hbody
        cases hbody
        have hv := varint_read_at buf off inner.length pre c
          (inner.flatten ++ (restBytes ++ rest))
          (by rw [hbuf]; simp [List.append_assoc]) hoff hc
          (hcount inner (by simp))
        have hl := podVLoop_reads N inner (pre ++ c) (restBytes ++ rest)
          buf (off + c.length)
          (by rw [hbuf]; simp [List.append_assoc])
          (by rw [hoff, List.length_append])
          (hN inner (by simp))
        have hih := ih restBytes (pre ++ c ++ inner.flatten) rest buf
          (off + c.length + inner.flatten.length) hrest
          (by rw [hbuf]; simp [List.append_assoc])
          (by rw [hoff]; simp only [List.length_append]; try omega)
          (fun i hi => hN i (by simp [hi]))
          (fun i hi => hcount i (by simp [hi]))
        have hlen3 : off + c.length + inner.flatten.length + restBytes.length
            = off + (c ++ inner.flatten ++ restBytes).length := by
          simp only [List.length_append]
          omega
        show podVVLoop N (rest2.length + 1) ⟨buf, off⟩ = _
        simp only [podVVLoop, hv, hl, hih]
        rw [hlen3]

end Serialization

namespace Serialization

/-- Flat list round-trip through the writer/reader framing. -/
theorem podV_roundtrip (N : Nat) (values : List (List Nat))
    (hN : ∀ l ∈ values, l.length = N) (hcount : values.length < 2 ^ 64) :
    ∃ bs, pod_vector_bytes values = .ok bs ∧
      deserializer_t.podV ⟨bs, 0⟩ N false = .ok (values, ⟨bs, bs.length⟩) := by
  obtain ⟨c, hc⟩ := encodeAux_ok_exists (8 + 1) values.length
    (lt_of_lt_of_le hcount (by norm_num))
  have hc2 : encode_varint 8 values.length = .ok c := hc
  refine ⟨c ++ values.flatten, ?_, ?_⟩
  · unfold pod_vector_bytes
    rw [hc2]
  · have hv := varint_read_at (c ++ values.flatten) 0 values.length [] c
      values.flatten (by simp) rfl hc2 hcount
    have hl := podVLoop_reads N values c [] (c ++ values.flatten)
      (0 + c.length) (by simp) (by simp) hN
    simp only [deserializer_t.podV, hv, hl]
    simp [List.length_append]

/-- Nested list round-trip through the writer/reader framing. -/
theorem podVV_roundtrip (N : Nat) (nested : List (List (List Nat)))
    (hN : ∀ inner ∈ nested, ∀ l ∈ inner, l.length = N)
    (hcount : nested.length < 2 ^ 64)
    (hinner : ∀ inner ∈ nested, inner.length < 2 ^ 64) :
    ∃ bs, pod_nested_bytes nested = .ok bs ∧
      deserializer_t.podVV ⟨bs, 0⟩ N false = .ok (nested, ⟨bs, bs.length⟩) := by
  obtain ⟨c, hc⟩ := encodeAux_ok_exists (8 + 1) nested.length
    (lt_of_lt_of_le hcount (by norm_num))
  have hc2 : encode_varint 8 nested.length = .ok c := hc
  have hauxok : ∃ body, podNestedAux nested = .ok body := by
    clear hc hc2 hcount
    induction nested with
    | nil => exact ⟨[], rfl⟩
    | cons inner rest2 ih =>
      obtain ⟨ci, hci⟩ := encodeAux_ok_exists (8 + 1) inner.length
        (lt_of_lt_of_le (hinner inner (by simp)) (by norm_num))
      obtain ⟨body2, hbody2⟩ := ih (fun i hi => hN i (by simp [hi]))
        (fun i hi => hinner i (by simp [hi]))
      refine ⟨ci ++ inner.flatten ++ body2, ?_⟩
      simp only [podNestedAux]
      rw [show encode_varint 8 inner.length = .ok ci from hci, hbody2]
  obtain ⟨body, hbody⟩ := hauxok
  refine ⟨c ++ body, ?_, ?_⟩
  · unfold pod_nested_bytes
    rw [hc2, hbody]
  · have hv := varint_read_at (c ++ body) 0 nested.length [] c body
      (by simp) rfl hc2 hcount
    have hl := podVVLoop_reads N nested body c [] (c ++ body)
      (0 + c.length) hbody (by simp) (by simp) hN hinner
    simp only [deserializer_t.podVV, hv, hl]
    simp [List.length_append]

/-- C5: the writer's `pod(vector)` emits `varint(count)` followed by each
element's serialization in order, and `podV` reads that byte string back
to the original list in order; the nested `pod(vector<vector>)` / `podVV`
pair does the same with an extra varint count per inner list,
reproducing nested lists exactly. -/
theorem pod_framing_roundtrip (N : Nat) (values : List (List Nat))
    (nested : List (List (List Nat)))
    (hN : ∀ l ∈ values, l.length = N) (hcount : values.length < 2 ^ 64)
    (hNN : ∀ inner ∈ nested, ∀ l ∈ inner, l.length = N)
    (hncount : nested.length < 2 ^ 64)
    (hinner : ∀ inner ∈ nested, inner.length < 2 ^ 64) :
    (∃ bs, pod_vector_bytes values = .ok bs ∧
      deserializer_t.podV ⟨bs, 0⟩ N false = .ok (values, ⟨bs, bs.length⟩)) ∧
    (∃ bs, pod_nested_bytes nested = .ok bs ∧
      deserializer_t.podVV ⟨bs, 0⟩ N false = .ok (nested, ⟨bs, bs.length⟩)) :=
  ⟨podV_roundtrip N values hN hcount,
   podVV_roundtrip N nested hNN hncount hinner⟩

/-- C5 witness: 1-byte PODs, the flat list `[[7], [9]]` and the nested
list `[[[1], [2]], [[3]]]`. -/
theorem pod_framing_roundtrip_witness :
    (∃ bs, pod_vector_bytes [[7], [9]] = .ok bs ∧
      deserializer_t.podV ⟨bs, 0⟩ 1 false = .ok ([[7], [9]], ⟨bs, bs.length⟩)) ∧
    (∃ bs, pod_nested_bytes [[[1], [2]], [[3]]] = .ok bs ∧
      deserializer_t.podVV ⟨bs, 0⟩ 1 false =
        .ok ([[[1], [2]], [[3]]], ⟨bs, bs.length⟩)) :=
  pod_framing_roundtrip 1 [[7], [9]] [[[1], [2]], [[3]]]
    (by decide) (by decide) (by decide) (by decide) (by decide)

end Serialization
